import Mathlib

/-!
Shallow embedding of the persistent image-metadata cache of
`src/src-tauri/src/metadata_cache.rs` (FRFlor/image-manager).

The SQLite table `image_metadata` is modelled as a list of records in
rowid (insertion) order: `INSERT OR REPLACE` deletes any row with the
same primary key `file_path` and inserts a fresh row with a rowid larger
than all existing ones, i.e. at the end of the list.  `ORDER BY
last_accessed ASC` reads the secondary index, whose entries with equal
keys are ordered by rowid; this is exactly a stable sort of the
insertion-ordered list by `last_accessed`.

Timestamps: the code stores `Utc::now().to_rfc3339()` strings whose
lexicographic order agrees with chronological order (fixed-width date
and time fields; chrono's `AutoSi` fractional seconds of 0/3/6/9 digits
compare correctly because both `+` of the offset and end-of-fraction
compare below any digit).  We therefore model `last_accessed` as a `Nat`
and pass the clock reading `now` explicitly to each operation.

I/O failures of rusqlite (the only `Err` sources in the code) are
environmental and outside the model; operations return their pure
result.
-/

namespace ImageManager

/-- `CachedMetadata` as returned by `MetadataCache::get`. -/
structure CachedMetadata where
  width : Nat
  height : Nat
  file_size : Nat
deriving Repr, DecidableEq

/-- One row of the `image_metadata` table (`file_path` is the primary key). -/
structure CacheRecord where
  file_path : String
  last_modified : String
  width : Nat
  height : Nat
  file_size : Nat
  last_accessed : Nat
deriving Repr, DecidableEq

/-- The table contents, in rowid (insertion) order. -/
abbrev Store := List CacheRecord

/-- The cache handle: the connection's table contents plus `max_entries`. -/
structure MetadataCache where
  store : Store
  max_entries : Nat
deriving Repr, DecidableEq

/-- `SELECT ... FROM image_metadata WHERE file_path = ?1` (point lookup on
the primary key: the first — and, with a well-formed table, only — row
whose `file_path` matches). -/
def queryRecord (st : Store) (p : String) : Option CacheRecord :=
  st.find? (fun r => r.file_path == p)

/-- Stable insertion into a list that is already sorted by `last_accessed`:
the new element goes before the first element with a strictly larger or
equal-and-later key.  Ties keep the original (rowid) order because the
element inserted here precedes, in rowid order, everything already in
the accumulator. -/
def insertRecency (r : CacheRecord) : List CacheRecord → List CacheRecord
  | [] => [r]
  | q :: qs =>
    if r.last_accessed ≤ q.last_accessed then r :: q :: qs
    else q :: insertRecency r qs

/-- `ORDER BY last_accessed ASC` over the table: stable sort of the
rowid-ordered list by `last_accessed` (the secondary index orders equal
keys by rowid). -/
def sortRecency : List CacheRecord → List CacheRecord
  | [] => []
  | q :: qs => insertRecency q (sortRecency qs)

/-- `MetadataCache::evict_if_needed`: count the rows; if the count
exceeds `max_entries`, delete the rows whose `file_path` is among the
first `count - max_entries` paths in `last_accessed` order. -/
def evict_if_needed (max_entries : Nat) (st : Store) : Store :=
  let count := st.length
  if count > max_entries then
    let to_delete := count - max_entries
    let victims := ((sortRecency st).take to_delete).map (fun r => r.file_path)
    st.filter (fun q => !(victims.contains q.file_path))
  else st

/-- The per-row effect of the hit path's
`UPDATE image_metadata SET last_accessed = ?1 WHERE file_path = ?2`. -/
def touchRow (file_path : String) (now : Nat) (q : CacheRecord) : CacheRecord :=
  if q.file_path == file_path then { q with last_accessed := now } else q

/-- `MetadataCache::get`: point lookup, then on a fingerprint match an
`UPDATE` of `last_accessed` (hit), on a mismatch a `DELETE` of the rows
for that path (invalidation), and on absence no write at all. -/
def MetadataCache.get (c : MetadataCache) (file_path last_modified : String)
    (now : Nat) : Option CachedMetadata × MetadataCache :=
  match queryRecord c.store file_path with
  | none => (none, c)
  | some r =>
    if r.last_modified == last_modified then
      (some ⟨r.width, r.height, r.file_size⟩,
       { c with store := c.store.map (touchRow file_path now) })
    else
      (none, { c with store := c.store.filter (fun q => !(q.file_path == file_path)) })

/-- `MetadataCache::set`: `INSERT OR REPLACE` (drop any row with this
path, append a fresh row with `last_accessed = now`), then eviction. -/
def MetadataCache.set (c : MetadataCache) (file_path last_modified : String)
    (width height file_size now : Nat) : MetadataCache :=
  let newRec : CacheRecord :=
    ⟨file_path, last_modified, width, height, file_size, now⟩
  let upserted := (c.store.filter (fun q => !(q.file_path == file_path))) ++ [newRec]
  { c with store := evict_if_needed c.max_entries upserted }

/-- `CacheStats` as returned by `MetadataCache::get_stats`. -/
structure CacheStats where
  entry_count : Nat
  max_entries : Nat
deriving Repr, DecidableEq

/-- `MetadataCache::get_stats`: `SELECT COUNT(*)` plus the configured bound. -/
def MetadataCache.get_stats (c : MetadataCache) : CacheStats :=
  ⟨c.store.length, c.max_entries⟩

/-- `MetadataCache::clear`: `DELETE FROM image_metadata`. -/
def MetadataCache.clear (c : MetadataCache) : MetadataCache :=
  { c with store := [] }

/-- `MetadataCache::flush`: a WAL checkpoint; it moves bytes between
files on disk and leaves the logical table contents unchanged. -/
def MetadataCache.flush (c : MetadataCache) : MetadataCache := c

/-- `MetadataCache::new`: opens (creating if absent) the database at the
fixed per-user location and runs `CREATE TABLE IF NOT EXISTS` /
`CREATE INDEX IF NOT EXISTS`, which preserve any already-persisted rows
(`persisted`).  The code performs no validation of `max_entries`; the
only `Err` paths are environmental I/O failures (directory creation,
`Connection::open`), which are outside the model. -/
def MetadataCache.new (max_entries : Nat) (persisted : Store) :
    Except String MetadataCache :=
  .ok ⟨persisted, max_entries⟩

/-- Well-formedness of the table: `file_path` is the primary key, so no
path occurs twice. -/
def pathsNodup (st : Store) : Prop :=
  (st.map (fun r => r.file_path)).Nodup

instance (st : Store) : Decidable (pathsNodup st) := by
  unfold pathsNodup; infer_instance

/-! ### Basic lemmas about the embedded operations -/

theorem contains_iff {ps : List String} {a : String} :
    ps.contains a = true ↔ a ∈ ps := by
  simp [List.contains_eq_any_beq, List.any_eq_true]

theorem insertRecency_perm (r : CacheRecord) (l : List CacheRecord) :
    List.Perm (insertRecency r l) (r :: l) := by
  induction l with
  | nil => simp [insertRecency]
  | cons q qs ih =>
    unfold insertRecency
    by_cases hle : r.last_accessed ≤ q.last_accessed
    · simp [hle]
    · rw [if_neg hle]
      exact List.Perm.trans (List.Perm.cons q ih) (List.Perm.swap r q qs)

theorem sortRecency_perm (l : List CacheRecord) :
    List.Perm (sortRecency l) l := by
  induction l with
  | nil => simp [sortRecency]
  | cons q qs ih =>
    exact List.Perm.trans (insertRecency_perm q (sortRecency qs)) (List.Perm.cons q ih)

theorem length_sortRecency (l : List CacheRecord) :
    (sortRecency l).length = l.length :=
  (sortRecency_perm l).length_eq

theorem mem_sortRecency {l : List CacheRecord} {q : CacheRecord} :
    q ∈ sortRecency l ↔ q ∈ l :=
  (sortRecency_perm l).mem_iff

/-- Inserting into a list whose last element has the largest key keeps that
element last, provided the inserted element's key does not exceed it
(ties go before the last element: stability). -/
theorem insertRecency_append_last (a r : CacheRecord) (s : List CacheRecord)
    (h : a.last_accessed ≤ r.last_accessed) :
    insertRecency a (s ++ [r]) = insertRecency a s ++ [r] := by
  induction s with
  | nil => simp [insertRecency, h]
  | cons q qs ih =>
    unfold insertRecency
    by_cases hq : a.last_accessed ≤ q.last_accessed
    · simp [hq]
    · simp only [List.cons_append, if_neg hq]
      rw [ih]

/-- Sorting a list whose final element has the (weakly) largest key keeps
that element at the very end: the fresh row of an upsert is never among
the `LIMIT k` oldest rows for `k` smaller than the rest of the table. -/
theorem sortRecency_append_last (l : List CacheRecord) (r : CacheRecord)
    (hmax : ∀ q ∈ l, q.last_accessed ≤ r.last_accessed) :
    sortRecency (l ++ [r]) = sortRecency l ++ [r] := by
  induction l with
  | nil => simp [sortRecency, insertRecency]
  | cons a as ih =>
    have ha : a.last_accessed ≤ r.last_accessed := hmax a (by simp)
    have hmax' : ∀ q ∈ as, q.last_accessed ≤ r.last_accessed :=
      fun q hq => hmax q (by simp [hq])
    show insertRecency a (sortRecency (as ++ [r])) =
      insertRecency a (sortRecency as) ++ [r]
    rw [ih hmax']
    exact insertRecency_append_last a r (sortRecency as) ha

/-- Eviction only ever deletes rows; it never adds or edits one. -/
theorem mem_of_mem_evict {M : Nat} {st : Store} {q : CacheRecord}
    (hq : q ∈ evict_if_needed M st) : q ∈ st := by
  unfold evict_if_needed at hq
  by_cases hgt : st.length > M
  · rw [if_pos hgt] at hq
    exact (List.mem_filter.mp hq).1
  · rwa [if_neg hgt] at hq

/-- Structure of eviction on a table whose last row is fresh (weakly
newest `last_accessed`) and has a path distinct from all other rows:
with a positive capacity, the last row survives and the rest only
shrinks. -/
theorem evict_append_last (M : Nat) (l : List CacheRecord) (r : CacheRecord)
    (hM : 1 ≤ M)
    (hmax : ∀ q ∈ l, q.last_accessed ≤ r.last_accessed)
    (hpath : ∀ q ∈ l, q.file_path ≠ r.file_path) :
    ∃ l', evict_if_needed M (l ++ [r]) = l' ++ [r] ∧ ∀ q ∈ l', q ∈ l := by
  by_cases hgt : (l ++ [r]).length > M
  · have hkle : (l ++ [r]).length - M ≤ (sortRecency l).length := by
      rw [length_sortRecency]; simp; omega
    set k := (l ++ [r]).length - M with hk
    set victims := ((sortRecency l).take k).map (fun q => q.file_path) with hv
    have hstep : evict_if_needed M (l ++ [r]) =
        (l ++ [r]).filter (fun q => !(victims.contains q.file_path)) := by
      simp only [evict_if_needed]
      rw [if_pos hgt, sortRecency_append_last l r hmax,
          List.take_append_of_le_length hkle]
    have hvict : ∀ a ∈ victims, ∃ q ∈ l, q.file_path = a := by
      intro a ha
      obtain ⟨q, hq, hqa⟩ := List.mem_map.mp ha
      exact ⟨q, mem_sortRecency.mp ((List.take_sublist k _).mem hq), hqa⟩
    have hr : victims.contains r.file_path = false := by
      by_contra hcon
      have : r.file_path ∈ victims :=
        contains_iff.mp (eq_true_of_ne_false hcon)
      obtain ⟨q, hql, hqr⟩ := hvict _ this
      exact hpath q hql hqr
    refine ⟨l.filter (fun q => !(victims.contains q.file_path)), ?_, ?_⟩
    · rw [hstep, List.filter_append]
      simp [hr]
      intro hmem
      rw [contains_iff.mpr hmem] at hr
      cases hr
    · intro q hq
      exact (List.mem_filter.mp hq).1
  · refine ⟨l, ?_, fun q hq => hq⟩
    simp only [evict_if_needed]
    rw [if_neg hgt]

/-- Structure of a `set` with positive capacity when the clock is not
behind any stored `last_accessed`: the result is some remnant of the old
rows (all with other paths) followed by the fresh row. -/
theorem set_store_structure (c : MetadataCache) (p f : String) (w h s now : Nat)
    (hcap : 1 ≤ c.max_entries)
    (hclock : ∀ q ∈ c.store, q.last_accessed ≤ now) :
    ∃ l', (c.set p f w h s now).store = l' ++ [⟨p, f, w, h, s, now⟩] ∧
      ∀ q ∈ l', q ∈ c.store ∧ q.file_path ≠ p := by
  obtain ⟨l', hev, hsub⟩ := evict_append_last c.max_entries
    (c.store.filter (fun q => !(q.file_path == p))) ⟨p, f, w, h, s, now⟩ hcap
    (fun q hq => hclock q (List.mem_filter.mp hq).1)
    (fun q hq => by simpa using (List.mem_filter.mp hq).2)
  refine ⟨l', hev, fun q hq => ?_⟩
  have hq' := hsub q hq
  exact ⟨(List.mem_filter.mp hq').1, by simpa using (List.mem_filter.mp hq').2⟩

/-- A point lookup skips a prefix none of whose rows carry the path. -/
theorem queryRecord_append_of_ne (l1 l2 : Store) (p : String)
    (h : ∀ q ∈ l1, q.file_path ≠ p) :
    queryRecord (l1 ++ l2) p = queryRecord l2 p := by
  induction l1 with
  | nil => rfl
  | cons a as ih =>
    have ha : (a.file_path == p) = false := beq_eq_false_iff_ne.mpr (h a (by simp))
    show List.find? (fun r => r.file_path == p) (a :: (as ++ l2)) = _
    rw [List.find?_cons_of_neg _ (by simp [ha])]
    exact ih (fun q hq => h q (by simp [hq]))

/-- A point lookup on a list of rows all carrying other paths misses. -/
theorem queryRecord_eq_none_of_ne (l : Store) (p : String)
    (h : ∀ q ∈ l, q.file_path ≠ p) :
    queryRecord l p = none := by
  apply List.find?_eq_none.mpr
  intro q hq
  simp [beq_eq_false_iff_ne.mpr (h q hq)]

/-- After a `set` with positive capacity and a non-regressing clock, the
lookup for the written path finds exactly the fresh row. -/
theorem set_queryRecord_self (c : MetadataCache) (p f : String) (w h s now : Nat)
    (hcap : 1 ≤ c.max_entries)
    (hclock : ∀ q ∈ c.store, q.last_accessed ≤ now) :
    queryRecord (c.set p f w h s now).store p = some ⟨p, f, w, h, s, now⟩ := by
  obtain ⟨l', hst, hl'⟩ := set_store_structure c p f w h s now hcap hclock
  rw [hst, queryRecord_append_of_ne l' _ p (fun q hq => (hl' q hq).2)]
  simp [queryRecord]

/-- Every row of a `set` result is either an untouched old row or the
fully fresh row: `set` rewrites every field of the row it writes. -/
theorem mem_set_store {c : MetadataCache} {p f : String} {w h s now : Nat}
    {q : CacheRecord} (hq : q ∈ (c.set p f w h s now).store) :
    q ∈ c.store ∨ q = ⟨p, f, w, h, s, now⟩ := by
  have hq' : q ∈ (c.store.filter (fun q => !(q.file_path == p))) ++
      [(⟨p, f, w, h, s, now⟩ : CacheRecord)] := mem_of_mem_evict hq
  rcases List.mem_append.mp hq' with h1 | h2
  · exact Or.inl (List.mem_filter.mp h1).1
  · exact Or.inr (by simpa using h2)

/-- Filtering the table never duplicates a primary key. -/
theorem pathsNodup_filter (st : Store) (pred : CacheRecord → Bool)
    (h : pathsNodup st) : pathsNodup (st.filter pred) :=
  List.Nodup.sublist ((List.filter_sublist st).map (fun r => r.file_path)) h

/-- Eviction never duplicates a primary key. -/
theorem pathsNodup_evict (M : Nat) (st : Store) (h : pathsNodup st) :
    pathsNodup (evict_if_needed M st) := by
  simp only [evict_if_needed]
  by_cases hgt : st.length > M
  · rw [if_pos hgt]; exact pathsNodup_filter st _ h
  · rwa [if_neg hgt]

/-- `set` never duplicates a primary key: the upsert removes the old row
for the path before appending the fresh one. -/
theorem pathsNodup_set (c : MetadataCache) (p f : String) (w h s now : Nat)
    (hnd : pathsNodup c.store) : pathsNodup (c.set p f w h s now).store := by
  apply pathsNodup_evict
  unfold pathsNodup
  rw [List.map_append, List.nodup_append]
  refine ⟨pathsNodup_filter c.store _ hnd, by simp, ?_⟩
  intro a ha hb
  simp only [List.map_cons, List.map_nil, List.mem_singleton] at hb
  obtain ⟨q, hq, hqa⟩ := List.mem_map.mp ha
  have := (List.mem_filter.mp hq).2
  rw [hqa, hb] at this
  simp at this

/-- Every `LIMIT k` victim row is in fact deleted, so eviction always
brings the row count down to at most the capacity. -/
theorem length_evict_le (M : Nat) (st : Store) :
    (evict_if_needed M st).length ≤ M := by
  simp only [evict_if_needed]
  by_cases hgt : st.length > M
  · rw [if_pos hgt]
    set k := st.length - M with hk
    set victims := ((sortRecency st).take k).map (fun r => r.file_path) with hv
    set keep : CacheRecord → Bool := fun q => !(victims.contains q.file_path) with hkeep
    have hperm : (st.filter keep).length = ((sortRecency st).filter keep).length :=
      (List.Perm.filter keep (sortRecency_perm st)).length_eq.symm
    have hsplit : sortRecency st = (sortRecency st).take k ++ (sortRecency st).drop k :=
      (List.take_append_drop k (sortRecency st)).symm
    have htake : ((sortRecency st).take k).filter keep = [] := by
      apply List.filter_eq_nil_iff.mpr
      intro q hq
      have : q.file_path ∈ victims := List.mem_map.mpr ⟨q, hq, rfl⟩
      simp only [hkeep]
      rw [contains_iff.mpr this]
      decide
    calc (st.filter keep).length
        = ((sortRecency st).filter keep).length := hperm
      _ = (((sortRecency st).take k).filter keep).length
            + (((sortRecency st).drop k).filter keep).length := by
          rw [hsplit, List.filter_append, List.length_append]
          rw [← hsplit]
      _ = (((sortRecency st).drop k).filter keep).length := by rw [htake]; simp
      _ ≤ ((sortRecency st).drop k).length := List.length_filter_le _ _
      _ ≤ M := by rw [List.length_drop, length_sortRecency]; omega
  · rw [if_neg hgt]; omega

/-- With distinct primary keys, eviction deletes exactly
`count - capacity` rows: the count lands exactly on the capacity. -/
theorem length_evict_of_nodup (M : Nat) (st : Store)
    (hnd : pathsNodup st) (hgt : M < st.length) :
    (evict_if_needed M st).length = M := by
  have hle := length_evict_le M st
  simp only [evict_if_needed] at hle ⊢
  rw [if_pos hgt] at hle ⊢
  set k := st.length - M with hk
  set victims := ((sortRecency st).take k).map (fun r => r.file_path) with hv
  set keep : CacheRecord → Bool := fun q => !(victims.contains q.file_path) with hkeep
  have hperm : (st.filter keep).length = ((sortRecency st).filter keep).length :=
    (List.Perm.filter keep (sortRecency_perm st)).length_eq.symm
  have hsplit : sortRecency st = (sortRecency st).take k ++ (sortRecency st).drop k :=
    (List.take_append_drop k (sortRecency st)).symm
  have htake : ((sortRecency st).take k).filter keep = [] := by
    apply List.filter_eq_nil_iff.mpr
    intro q hq
    have : q.file_path ∈ victims := List.mem_map.mpr ⟨q, hq, rfl⟩
    simp only [hkeep]
    rw [contains_iff.mpr this]
    decide
  have hndsorted : ((sortRecency st).map (fun r => r.file_path)).Nodup := by
    have h1 : List.Perm ((sortRecency st).map (fun r => r.file_path))
        (st.map (fun r => r.file_path)) := (sortRecency_perm st).map (fun r => r.file_path)
    exact h1.nodup_iff.mpr hnd
  have hdisj : (((sortRecency st).take k).map (fun r => r.file_path)).Disjoint
      (((sortRecency st).drop k).map (fun r => r.file_path)) := by
    have : ((sortRecency st).map (fun r => r.file_path)) =
        ((sortRecency st).take k).map (fun r => r.file_path) ++
        ((sortRecency st).drop k).map (fun r => r.file_path) := by
      rw [← List.map_append, List.take_append_drop]
    rw [this] at hndsorted
    exact (List.nodup_append.mp hndsorted).2.2
  have hdrop : ((sortRecency st).drop k).filter keep = (sortRecency st).drop k := by
    apply List.filter_eq_self.mpr
    intro q hq
    have hnotv : q.file_path ∉ victims := by
      intro hmem
      exact hdisj hmem (List.mem_map.mpr ⟨q, hq, rfl⟩)
    have hcf : victims.contains q.file_path = false := by
      by_contra hcon
      exact hnotv (contains_iff.mp (eq_true_of_ne_false hcon))
    simp only [hkeep]
    rw [hcf]
    decide
  calc (st.filter keep).length
      = ((sortRecency st).filter keep).length := hperm
    _ = (((sortRecency st).take k).filter keep).length
          + (((sortRecency st).drop k).filter keep).length := by
        rw [hsplit, List.filter_append, List.length_append]
        rw [← hsplit]
    _ = ((sortRecency st).drop k).length := by rw [htake, hdrop]; simp
    _ = M := by rw [List.length_drop, length_sortRecency]; omega

/-- With capacity zero, eviction empties the table: `count - 0` rows are
selected as victims — all of them, the fresh row included. -/
theorem evict_zero (st : Store) : evict_if_needed 0 st = [] := by
  cases st with
  | nil => rfl
  | cons a as =>
    simp only [evict_if_needed]
    rw [if_pos (by simp)]
    apply List.filter_eq_nil_iff.mpr
    intro q hq
    have hqs : q ∈ sortRecency (a :: as) := mem_sortRecency.mpr hq
    have htk : q ∈ (sortRecency (a :: as)).take ((a :: as).length - 0) := by
      rw [Nat.sub_zero, List.take_of_length_le (le_of_eq (length_sortRecency _))]
      exact hqs
    have hmem : q.file_path ∈
        ((sortRecency (a :: as)).take ((a :: as).length - 0)).map
          (fun r => r.file_path) :=
      List.mem_map.mpr ⟨q, htk, rfl⟩
    rw [contains_iff.mpr hmem]
    decide

/-- `touchRow` never changes a row's primary key. -/
theorem touchRow_file_path (p : String) (now : Nat) (q : CacheRecord) :
    (touchRow p now q).file_path = q.file_path := by
  unfold touchRow
  split <;> rfl

/-- `touchRow` leaves rows for other paths untouched. -/
theorem touchRow_of_ne (p : String) (now : Nat) (q : CacheRecord)
    (h : q.file_path ≠ p) : touchRow p now q = q := by
  unfold touchRow
  rw [if_neg]
  simp [h]

/-- The hit path's `UPDATE` rewrites exactly the looked-up row's
`last_accessed` — the row found afterwards differs only in that field. -/
theorem queryRecord_map_touch (st : Store) (p : String) (now : Nat)
    (r : CacheRecord) (hq : queryRecord st p = some r) :
    queryRecord (st.map (touchRow p now)) p =
      some { r with last_accessed := now } := by
  induction st with
  | nil => exact absurd hq (by simp [queryRecord])
  | cons a as ih =>
    unfold queryRecord at hq ⊢
    by_cases hp : (a.file_path == p) = true
    · rw [@List.find?_cons_of_pos _ (fun r => r.file_path == p) a as hp] at hq
      obtain rfl : a = r := Option.some.inj hq
      have hp' : ((touchRow p now a).file_path == p) = true := by
        rw [touchRow_file_path]; exact hp
      rw [List.map_cons, @List.find?_cons_of_pos _ (fun r => r.file_path == p)
        (touchRow p now a) (as.map (touchRow p now)) hp']
      unfold touchRow
      rw [if_pos hp]
    · rw [@List.find?_cons_of_neg _ (fun r => r.file_path == p) a as hp] at hq
      have hp' : ¬ ((touchRow p now a).file_path == p) = true := by
        rw [touchRow_file_path]; exact hp
      rw [List.map_cons, @List.find?_cons_of_neg _ (fun r => r.file_path == p)
        (touchRow p now a) (as.map (touchRow p now)) hp']
      exact ih hq

/-- Evaluation of `get` on a hit. -/
theorem get_hit_eq (c : MetadataCache) (p f : String) (now : Nat)
    (r : CacheRecord) (hq : queryRecord c.store p = some r)
    (hf : (r.last_modified == f) = true) :
    c.get p f now = (some ⟨r.width, r.height, r.file_size⟩,
      { c with store := c.store.map (touchRow p now) }) := by
  unfold MetadataCache.get
  rw [hq]
  simp [hf]

/-- A row of a `set` result carrying the written path is the fresh row. -/
theorem mem_set_store_path {c : MetadataCache} {p f : String}
    {w h s now : Nat} {q : CacheRecord}
    (hq : q ∈ (c.set p f w h s now).store) (hpath : q.file_path = p) :
    q = ⟨p, f, w, h, s, now⟩ := by
  have hq' : q ∈ (c.store.filter (fun q => !(q.file_path == p))) ++
      [(⟨p, f, w, h, s, now⟩ : CacheRecord)] := mem_of_mem_evict hq
  rcases List.mem_append.mp hq' with h1 | h2
  · have := (List.mem_filter.mp h1).2
    rw [beq_iff_eq.mpr hpath] at this
    cases this
  · simpa using h2

/-! ### Claim theorems -/

/-- C1: for every path `p`, fingerprint `f`, dimensions `(w, h)` and size
`s`, calling `set(p, f, w, h, s)` and then `get(p, f)` on the same cache
returns `Some({w, h})` (with a positive capacity and the clock of the
`set` not behind any stored `last_accessed`, as `Utc::now` provides). -/
theorem hit_after_set (c : MetadataCache) (p f : String) (w h s now now2 : Nat)
    (hcap : 1 ≤ c.max_entries)
    (hclock : ∀ q ∈ c.store, q.last_accessed ≤ now) :
    ((c.set p f w h s now).get p f now2).1 = some ⟨w, h, s⟩ := by
  have hq := set_queryRecord_self c p f w h s now hcap hclock
  rw [get_hit_eq _ p f now2 _ hq (by simp)]

theorem hit_after_set_witness :
    (((⟨[], 5⟩ : MetadataCache).set "/img/a.png" "2024" 640 480 1000 1).get
      "/img/a.png" "2024" 2).1 = some ⟨640, 480, 1000⟩ :=
  hit_after_set ⟨[], 5⟩ "/img/a.png" "2024" 640 480 1000 1 2 (by decide)
    (by intro q hq; cases hq)

/-- C2: after `set(p, t1, w, h, s)`, a `get(p, t2)` with `t2 ≠ t1`
returns `None` and deletes the record for `p`, so a subsequent
`get(p, t1)` also returns `None`. -/
theorem invalidation_deletes_stale (c : MetadataCache) (p t1 t2 : String)
    (w h s now1 now2 now3 : Nat) (hne : t1 ≠ t2) :
    ((c.set p t1 w h s now1).get p t2 now2).1 = none ∧
    queryRecord (((c.set p t1 w h s now1).get p t2 now2).2).store p = none ∧
    ((((c.set p t1 w h s now1).get p t2 now2).2).get p t1 now3).1 = none := by
  cases hqr : queryRecord (c.set p t1 w h s now1).store p with
  | none =>
    have hget : (c.set p t1 w h s now1).get p t2 now2 =
        (none, c.set p t1 w h s now1) := by
      unfold MetadataCache.get
      rw [hqr]
    rw [hget]
    refine ⟨rfl, hqr, ?_⟩
    unfold MetadataCache.get
    rw [hqr]
  | some r =>
    have hqr' : List.find? (fun q => q.file_path == p)
        ((c.set p t1 w h s now1).store) = some r := hqr
    have hfind := List.find?_some hqr'
    have hr_path : r.file_path = p := beq_iff_eq.mp hfind
    have hr_eq : r = ⟨p, t1, w, h, s, now1⟩ :=
      mem_set_store_path (List.mem_of_find?_eq_some hqr) hr_path
    have hmism : (r.last_modified == t2) = false := by
      rw [hr_eq]
      exact beq_eq_false_iff_ne.mpr hne
    have hget : (c.set p t1 w h s now1).get p t2 now2 =
        (none, { c.set p t1 w h s now1 with
          store := (c.set p t1 w h s now1).store.filter
            (fun q => !(q.file_path == p)) }) := by
      unfold MetadataCache.get
      rw [hqr]
      simp [hmism]
    rw [hget]
    have hnone : queryRecord ((c.set p t1 w h s now1).store.filter
        (fun q => !(q.file_path == p))) p = none := by
      apply queryRecord_eq_none_of_ne
      intro q hq
      simpa using (List.mem_filter.mp hq).2
    refine ⟨rfl, hnone, ?_⟩
    unfold MetadataCache.get
    rw [hnone]

theorem invalidation_deletes_stale_witness :
    (((⟨[], 5⟩ : MetadataCache).set "/img/a.png" "t1" 3 4 7 1).get
        "/img/a.png" "t2" 2).1 = none ∧
    queryRecord ((((⟨[], 5⟩ : MetadataCache).set "/img/a.png" "t1" 3 4 7 1).get
        "/img/a.png" "t2" 2).2).store "/img/a.png" = none ∧
    (((((⟨[], 5⟩ : MetadataCache).set "/img/a.png" "t1" 3 4 7 1).get
        "/img/a.png" "t2" 2).2).get "/img/a.png" "t1" 3).1 = none :=
  invalidation_deletes_stale ⟨[], 5⟩ "/img/a.png" "t1" "t2" 3 4 7 1 2 3
    (by decide)

/-- C3: immediately after any `set` the record count is at most the
configured capacity; moreover, whenever the count exceeds the capacity,
eviction on a table with distinct paths deletes exactly
`count - capacity` rows, landing exactly on the capacity. -/
theorem capacity_bound_after_set (c : MetadataCache) (p f : String)
    (w h s now M : Nat) (st : Store)
    (hnd : pathsNodup st) (hgt : M < st.length) :
    ((c.set p f w h s now).get_stats).entry_count ≤ c.max_entries ∧
    (evict_if_needed M st).length = M := by
  constructor
  · exact length_evict_le c.max_entries _
  · exact length_evict_of_nodup M st hnd hgt

theorem capacity_bound_after_set_witness :
    (((⟨[⟨"/x", "t", 1, 1, 1, 0⟩, ⟨"/y", "t", 1, 1, 1, 4⟩], 2⟩ :
        MetadataCache).set "/z" "t" 2 2 2 9).get_stats).entry_count ≤ 2 ∧
    (evict_if_needed 1 [⟨"/x", "t", 1, 1, 1, 0⟩, ⟨"/y", "t", 1, 1, 1, 4⟩]).length
      = 1 :=
  capacity_bound_after_set ⟨[⟨"/x", "t", 1, 1, 1, 0⟩, ⟨"/y", "t", 1, 1, 1, 4⟩], 2⟩
    "/z" "t" 2 2 2 9 1 [⟨"/x", "t", 1, 1, 1, 0⟩, ⟨"/y", "t", 1, 1, 1, 4⟩]
    (by decide) (by decide)

/-- C5: with a positive capacity (and a clock not running backwards, as
`Utc::now` provides within a run), the eviction at the end of a `set`
never deletes the record just inserted; with capacity zero the just-
inserted record is evicted (the whole table is emptied). -/
theorem fresh_row_not_evicted (c c0 : MetadataCache) (p f p0 f0 : String)
    (w h s now w0 g0 s0 now0 : Nat)
    (hclock : ∀ q ∈ c.store, q.last_accessed ≤ now)
    (hcap : 1 ≤ c.max_entries) (hzero : c0.max_entries = 0) :
    queryRecord (c.set p f w h s now).store p = some ⟨p, f, w, h, s, now⟩ ∧
    (c0.set p0 f0 w0 g0 s0 now0).store = [] := by
  constructor
  · exact set_queryRecord_self c p f w h s now hcap hclock
  · show evict_if_needed c0.max_entries _ = []
    rw [hzero]
    exact evict_zero _

theorem fresh_row_not_evicted_witness :
    queryRecord ((⟨[⟨"/old", "t", 1, 1, 1, 3⟩], 1⟩ : MetadataCache).set
        "/new" "u" 5 6 7 9).store "/new" = some ⟨"/new", "u", 5, 6, 7, 9⟩ ∧
    ((⟨[], 0⟩ : MetadataCache).set "/p" "v" 1 2 3 4).store = [] :=
  fresh_row_not_evicted ⟨[⟨"/old", "t", 1, 1, 1, 3⟩], 1⟩ ⟨[], 0⟩
    "/new" "u" "/p" "v" 5 6 7 9 1 2 3 4 (by decide) (by decide) (by decide)

/-- C7: a `get` for a path with no record returns `None` without error
and leaves the entire cache state unchanged. -/
theorem miss_on_unknown_path (c : MetadataCache) (p f : String) (now : Nat)
    (habs : queryRecord c.store p = none) :
    c.get p f now = (none, c) := by
  unfold MetadataCache.get
  rw [habs]

theorem miss_on_unknown_path_witness :
    (⟨[⟨"/x", "t", 1, 2, 3, 0⟩], 5⟩ : MetadataCache).get "/never/seen" "t" 7 =
      (none, ⟨[⟨"/x", "t", 1, 2, 3, 0⟩], 5⟩) :=
  miss_on_unknown_path ⟨[⟨"/x", "t", 1, 2, 3, 0⟩], 5⟩ "/never/seen" "t" 7
    (by decide)

/-- C10: `MetadataCache::new(0)` succeeds (the code never validates the
capacity), and with capacity 0 every `set` immediately evicts all
records including the one just inserted: the entry count is 0 after
every `set` and a subsequent `get` with the same fingerprint misses. -/
theorem capacity_zero_behavior (c : MetadataCache) (st : Store) (p f : String)
    (w h s now now2 : Nat) (hzero : c.max_entries = 0) :
    MetadataCache.new 0 st = .ok ⟨st, 0⟩ ∧
    (c.set p f w h s now).store = [] ∧
    ((c.set p f w h s now).get_stats).entry_count = 0 ∧
    ((c.set p f w h s now).get p f now2).1 = none := by
  have hempty : (c.set p f w h s now).store = [] := by
    show evict_if_needed c.max_entries _ = []
    rw [hzero]
    exact evict_zero _
  have hnone : queryRecord (c.set p f w h s now).store p = none := by
    rw [hempty]
    rfl
  refine ⟨rfl, hempty, ?_, ?_⟩
  · show ((c.set p f w h s now).store).length = 0
    rw [hempty]
    rfl
  · unfold MetadataCache.get
    rw [hnone]

theorem capacity_zero_behavior_witness :
    MetadataCache.new 0 [⟨"/x", "t", 1, 2, 3, 0⟩] =
      .ok ⟨[⟨"/x", "t", 1, 2, 3, 0⟩], 0⟩ ∧
    ((⟨[], 0⟩ : MetadataCache).set "/p" "f" 1 2 3 4).store = [] ∧
    (((⟨[], 0⟩ : MetadataCache).set "/p" "f" 1 2 3 4).get_stats).entry_count
      = 0 ∧
    (((⟨[], 0⟩ : MetadataCache).set "/p" "f" 1 2 3 4).get "/p" "f" 5).1 =
      none :=
  capacity_zero_behavior ⟨[], 0⟩ [⟨"/x", "t", 1, 2, 3, 0⟩] "/p" "f" 1 2 3 4 5
    (by decide)

/-- C6: calling `set(p, f, w, h, s)` twice with identical arguments
leaves exactly one record for `p` (upsert on the primary key), whose
fingerprint, width, height and file size are the set values; and the
primary-key uniqueness of the table is preserved. -/
theorem idempotent_re_set (c : MetadataCache) (p f : String)
    (w h s now1 now2 : Nat)
    (hnd : pathsNodup c.store) (hcap : 1 ≤ c.max_entries)
    (hclock : ∀ q ∈ c.store, q.last_accessed ≤ now1) (h12 : now1 ≤ now2) :
    ((c.set p f w h s now1).set p f w h s now2).store.filter
        (fun q => q.file_path == p) = [⟨p, f, w, h, s, now2⟩] ∧
    pathsNodup ((c.set p f w h s now1).set p f w h s now2).store := by
  have hclock1 : ∀ q ∈ (c.set p f w h s now1).store,
      q.last_accessed ≤ now2 := by
    intro q hq
    rcases mem_set_store hq with hold | hnew
    · exact le_trans (hclock q hold) h12
    · rw [hnew]
      exact h12
  obtain ⟨l', hst, hl'⟩ :=
    set_store_structure (c.set p f w h s now1) p f w h s now2 hcap hclock1
  constructor
  · rw [hst, List.filter_append]
    have h1 : l'.filter (fun q => q.file_path == p) = [] :=
      List.filter_eq_nil_iff.mpr (fun q hq => by
        simp [beq_eq_false_iff_ne.mpr (hl' q hq).2])
    rw [h1]
    simp
  · exact pathsNodup_set _ p f w h s now2 (pathsNodup_set c p f w h s now1 hnd)

theorem idempotent_re_set_witness :
    (((⟨[], 2⟩ : MetadataCache).set "/a" "t" 3 4 7 1).set
        "/a" "t" 3 4 7 2).store.filter (fun q => q.file_path == "/a") =
      [⟨"/a", "t", 3, 4, 7, 2⟩] ∧
    pathsNodup (((⟨[], 2⟩ : MetadataCache).set "/a" "t" 3 4 7 1).set
      "/a" "t" 3 4 7 2).store :=
  idempotent_re_set ⟨[], 2⟩ "/a" "t" 3 4 7 1 2 (by decide) (by decide)
    (by intro q hq; cases hq) (by decide)

/-- C8: on a hit, `get` returns `Some` of the stored width and height and
updates only the looked-up record's `last_accessed`: the record found
afterwards differs only in `last_accessed`, any record with another path
is still present unchanged, the record count and capacity are unchanged;
and no other operation mutates `last_accessed` without rewriting the
other fields — every record surviving a `set` is either untouched or the
fully fresh row, `flush` changes nothing, and `clear` only deletes. -/
theorem get_hit_frame (c c' : MetadataCache) (p f p' f' : String)
    (now w' g' s' n' : Nat) (r qo q' : CacheRecord)
    (hq : queryRecord c.store p = some r) (hf : r.last_modified = f)
    (hqo : qo ∈ c.store) (hqone : qo.file_path ≠ p)
    (hq' : q' ∈ (c'.set p' f' w' g' s' n').store) :
    (c.get p f now).1 = some ⟨r.width, r.height, r.file_size⟩ ∧
    queryRecord (c.get p f now).2.store p =
      some { r with last_accessed := now } ∧
    qo ∈ (c.get p f now).2.store ∧
    (c.get p f now).2.store.length = c.store.length ∧
    (c.get p f now).2.max_entries = c.max_entries ∧
    (q' ∈ c'.store ∨ q' = ⟨p', f', w', g', s', n'⟩) ∧
    c'.flush = c' ∧ c'.clear.store = [] := by
  have hbeq : (r.last_modified == f) = true := beq_iff_eq.mpr hf
  rw [get_hit_eq c p f now r hq hbeq]
  refine ⟨rfl, ?_, ?_, by simp, rfl, mem_set_store hq', rfl, rfl⟩
  · exact queryRecord_map_touch c.store p now r hq
  · have : touchRow p now qo = qo := touchRow_of_ne p now qo hqone
    rw [← this]
    exact List.mem_map_of_mem (touchRow p now) hqo

theorem get_hit_frame_witness :
    ((⟨[⟨"/x", "t", 1, 2, 3, 0⟩, ⟨"/y", "u", 4, 5, 6, 7⟩], 5⟩ :
        MetadataCache).get "/x" "t" 9).1 = some ⟨1, 2, 3⟩ ∧
    queryRecord ((⟨[⟨"/x", "t", 1, 2, 3, 0⟩, ⟨"/y", "u", 4, 5, 6, 7⟩], 5⟩ :
        MetadataCache).get "/x" "t" 9).2.store "/x" =
      some ⟨"/x", "t", 1, 2, 3, 9⟩ ∧
    (⟨"/y", "u", 4, 5, 6, 7⟩ : CacheRecord) ∈
      ((⟨[⟨"/x", "t", 1, 2, 3, 0⟩, ⟨"/y", "u", 4, 5, 6, 7⟩], 5⟩ :
        MetadataCache).get "/x" "t" 9).2.store ∧
    ((⟨[⟨"/x", "t", 1, 2, 3, 0⟩, ⟨"/y", "u", 4, 5, 6, 7⟩], 5⟩ :
        MetadataCache).get "/x" "t" 9).2.store.length = 2 ∧
    ((⟨[⟨"/x", "t", 1, 2, 3, 0⟩, ⟨"/y", "u", 4, 5, 6, 7⟩], 5⟩ :
        MetadataCache).get "/x" "t" 9).2.max_entries = 5 ∧
    ((⟨"/z", "v", 8, 8, 8, 8⟩ : CacheRecord) ∈ ([] : Store) ∨
      (⟨"/z", "v", 8, 8, 8, 8⟩ : CacheRecord) = ⟨"/z", "v", 8, 8, 8, 8⟩) ∧
    (⟨[], 3⟩ : MetadataCache).flush = ⟨[], 3⟩ ∧
    (⟨[], 3⟩ : MetadataCache).clear.store = [] :=
  get_hit_frame
    ⟨[⟨"/x", "t", 1, 2, 3, 0⟩, ⟨"/y", "u", 4, 5, 6, 7⟩], 5⟩ ⟨[], 3⟩
    "/x" "t" "/z" "v" 9 8 8 8 8 ⟨"/x", "t", 1, 2, 3, 0⟩
    ⟨"/y", "u", 4, 5, 6, 7⟩ ⟨"/z", "v", 8, 8, 8, 8⟩
    (by decide) rfl (by decide) (by decide) (by decide)

/-- C9: after `set` followed by `flush`, constructing a fresh cache
instance over the same persisted rows and calling `get` with the same
fingerprint returns the same cached value `Some({w, h})`. -/
theorem flush_reopen_durability (c : MetadataCache) (p f : String)
    (w h s now now2 M2 : Nat)
    (hcap : 1 ≤ c.max_entries)
    (hclock : ∀ q ∈ c.store, q.last_accessed ≤ now) :
    MetadataCache.new M2 (((c.set p f w h s now).flush).store) =
      .ok ⟨(c.set p f w h s now).store, M2⟩ ∧
    (((⟨(c.set p f w h s now).store, M2⟩ : MetadataCache)).get p f now2).1 =
      some ⟨w, h, s⟩ := by
  refine ⟨rfl, ?_⟩
  have hq : queryRecord (c.set p f w h s now).store p =
      some ⟨p, f, w, h, s, now⟩ :=
    set_queryRecord_self c p f w h s now hcap hclock
  rw [get_hit_eq ⟨(c.set p f w h s now).store, M2⟩ p f now2 _ hq (by simp)]

theorem flush_reopen_durability_witness :
    MetadataCache.new 7 ((((⟨[], 5⟩ : MetadataCache).set
        "/a" "t" 3 4 9 1).flush).store) =
      .ok ⟨((⟨[], 5⟩ : MetadataCache).set "/a" "t" 3 4 9 1).store, 7⟩ ∧
    ((⟨((⟨[], 5⟩ : MetadataCache).set "/a" "t" 3 4 9 1).store, 7⟩ :
        MetadataCache).get "/a" "t" 2).1 = some ⟨3, 4, 9⟩ :=
  flush_reopen_durability ⟨[], 5⟩ "/a" "t" 3 4 9 1 2 7 (by decide)
    (by intro q hq; cases hq)

set_option maxHeartbeats 1000000 in
/-- C4: with capacity 2, after `set(A)`, `set(B)`, a hit `get(A)`
(refreshing A's recency), and `set(C)`, the record for B — the one with
the smallest `last_accessed` — has been evicted while A and C remain. -/
theorem lru_eviction_order (pA pB pC fA fB fC : String)
    (wA hA sA wB hB sB wC hC sC t1 t2 t3 t4 : Nat)
    (hAB : pA ≠ pB) (hAC : pA ≠ pC) (hBC : pB ≠ pC)
    (h23 : t2 < t3) (h24 : t2 ≤ t4) :
    queryRecord (((((⟨[], 2⟩ : MetadataCache).set pA fA wA hA sA t1).set
        pB fB wB hB sB t2).get pA fA t3).2.set pC fC wC hC sC t4).store pB =
      none ∧
    queryRecord (((((⟨[], 2⟩ : MetadataCache).set pA fA wA hA sA t1).set
        pB fB wB hB sB t2).get pA fA t3).2.set pC fC wC hC sC t4).store pA =
      some ⟨pA, fA, wA, hA, sA, t3⟩ ∧
    queryRecord (((((⟨[], 2⟩ : MetadataCache).set pA fA wA hA sA t1).set
        pB fB wB hB sB t2).get pA fA t3).2.set pC fC wC hC sC t4).store pC =
      some ⟨pC, fC, wC, hC, sC, t4⟩ := by
  have nAB : (pA == pB) = false := beq_eq_false_iff_ne.mpr hAB
  have nBA : (pB == pA) = false := beq_eq_false_iff_ne.mpr (Ne.symm hAB)
  have nAC : (pA == pC) = false := beq_eq_false_iff_ne.mpr hAC
  have nCA : (pC == pA) = false := beq_eq_false_iff_ne.mpr (Ne.symm hAC)
  have nBC : (pB == pC) = false := beq_eq_false_iff_ne.mpr hBC
  have nCB : (pC == pB) = false := beq_eq_false_iff_ne.mpr (Ne.symm hBC)
  have n32 : ¬ (t3 ≤ t2) := not_le.mpr h23
  have hstore : (((((⟨[], 2⟩ : MetadataCache).set pA fA wA hA sA t1).set
        pB fB wB hB sB t2).get pA fA t3).2.set pC fC wC hC sC t4).store =
      [⟨pA, fA, wA, hA, sA, t3⟩, ⟨pC, fC, wC, hC, sC, t4⟩] := by
    simp [MetadataCache.set, MetadataCache.get, queryRecord, evict_if_needed,
        sortRecency, insertRecency, touchRow, nAB, nBA, nAC, nCA, nBC, nCB,
        n32, h24, hAB, hAC, hBC, Ne.symm hAB, Ne.symm hAC, Ne.symm hBC,
        List.filter, List.find?]
  rw [hstore]
  refine ⟨?_, ?_, ?_⟩ <;>
    simp [queryRecord, List.find?, nAB, nBA, nAC, nCA, nBC, nCB]

theorem lru_eviction_order_witness :
    queryRecord (((((⟨[], 2⟩ : MetadataCache).set "/A" "a" 10 11 12 1).set
        "/B" "b" 20 21 22 2).get "/A" "a" 3).2.set "/C" "c" 30 31 32 4).store
      "/B" = none ∧
    queryRecord (((((⟨[], 2⟩ : MetadataCache).set "/A" "a" 10 11 12 1).set
        "/B" "b" 20 21 22 2).get "/A" "a" 3).2.set "/C" "c" 30 31 32 4).store
      "/A" = some ⟨"/A", "a", 10, 11, 12, 3⟩ ∧
    queryRecord (((((⟨[], 2⟩ : MetadataCache).set "/A" "a" 10 11 12 1).set
        "/B" "b" 20 21 22 2).get "/A" "a" 3).2.set "/C" "c" 30 31 32 4).store
      "/C" = some ⟨"/C", "c", 30, 31, 32, 4⟩ :=
  lru_eviction_order "/A" "/B" "/C" "a" "b" "c" 10 11 12 20 21 22 30 31 32
    1 2 3 4 (by decide) (by decide) (by decide) (by decide) (by decide)

end ImageManager
